import Mathlib

/-!
Verification of `src/schlemiel.cpp` against its specification.

The program fills a fixed 1024-byte global character buffer `STRBUFFER` with
the four two-character tokens "Jo","Pa","Ge","Ri", either by repeatedly
appending at the scanned end of the current string (`inefficientStringConcat`)
or at a directly computed offset (`efficientStringConcat`), and times both.

The embedding models process memory at `STRBUFFER` as a total function
`Nat → Char` (index 1024 and above lie outside the declared buffer), and
instruments every byte write with the maximum index written so far (`maxW`),
so that out-of-bounds writes are observable.  The C library call
`strncat(dst, src, n)` is modelled faithfully to its documented semantics:
it finds the terminating null of the string at `dst`, copies at most `n`
characters of `src` there, and always writes one terminating null after them
(the bound `n` limits the source characters, not the destination capacity).
-/

set_option linter.unusedVariables false

namespace Schlemiel

/-- The null character `'\0'`. -/
def nullChar : Char := Char.ofNat 0

/-- Process memory starting at `STRBUFFER`: a total map from byte offset to
content.  Offsets `0..1023` are inside the declared buffer. -/
abbrev Buffer := Nat → Char

/-- Instrumented memory state: the bytes plus the largest offset written so
far (every execution we study begins by writing offset 0, so a plain `Nat`
starting at 0 is adequate). -/
structure CMem where
  buf : Buffer
  maxW : Nat

theorem CMem.ext_eq (a b : CMem) (h1 : a.buf = b.buf) (h2 : a.maxW = b.maxW) : a = b := by
  cases a; cases b; cases h1; cases h2; rfl

/-- Write one byte at offset `i`, recording the write in `maxW`. -/
def writeChar (m : CMem) (i : Nat) (c : Char) : CMem :=
  ⟨fun j => if j = i then c else m.buf j, Nat.max m.maxW i⟩

/-- Write the characters of `cs` at consecutive offsets starting at `i`. -/
def writeList (m : CMem) (i : Nat) : List Char → CMem
  | [] => m
  | c :: cs => writeList (writeChar m i c) (i + 1) cs

/-- `#define STRBUFLEN 1024` -/
def STRBUFLEN : Nat := 1024

/-- Scan budget for locating a terminating null; every state reached by the
program has its null within this bound. -/
def scanFuel : Nat := 2048

/-- Length of the C string starting at offset `p`: the number of bytes before
the first null, scanning at most `fuel` bytes. -/
def strlenFrom (b : Buffer) (p : Nat) : Nat → Nat
  | 0 => 0
  | fuel + 1 => if b p = nullChar then 0 else strlenFrom b (p + 1) fuel + 1

/-- Model of the C library call `strncat(STRBUFFER + p, src, n)`: locate the
end of the string starting at offset `p`, append at most `n` characters of
`src` there, then write a terminating null. -/
def strncatAt (m : CMem) (p : Nat) (src : List Char) (n : Nat) : CMem :=
  writeList m (p + strlenFrom m.buf p scanFuel) (src.take n ++ [nullChar])

/-- The token `"Jo"`. -/
def Jo : List Char := ['J', 'o']

/-- The token `"Pa"`. -/
def Pa : List Char := ['P', 'a']

/-- The token `"Ge"`. -/
def Ge : List Char := ['G', 'e']

/-- The token `"Ri"`. -/
def Ri : List Char := ['R', 'i']

/-- One concatenated round of the four tokens, `"JoPaGeRi"`. -/
def joPaGeRi : List Char := ['J', 'o', 'P', 'a', 'G', 'e', 'R', 'i']

/-- `cs` concatenated with itself `n` times, built by appending on the right
(the order in which the program builds it). -/
def repList (cs : List Char) : Nat → List Char
  | 0 => []
  | n + 1 => repList cs n ++ cs

/-- Body of the inner loop of `inefficientStringConcat`: four `strncat`
calls, each at `STRBUFFER` itself with bound `STRBUFLEN`. -/
def ineffBody (m : CMem) : CMem :=
  strncatAt (strncatAt (strncatAt (strncatAt m 0 Jo STRBUFLEN) 0 Pa STRBUFLEN) 0 Ge STRBUFLEN) 0 Ri STRBUFLEN

/-- `k` iterations of the inner loop of `inefficientStringConcat`. -/
def ineffInner (m : CMem) : Nat → CMem
  | 0 => m
  | k + 1 => ineffBody (ineffInner m k)

/-- One outer iteration of `inefficientStringConcat`:
`STRBUFFER[0] = '\0'` followed by `STRBUFLEN/8` inner iterations. -/
def ineffOuterBody (m : CMem) : CMem :=
  ineffInner (writeChar m 0 nullChar) (STRBUFLEN / 8)

/-- Body of the inner loop of `efficientStringConcat` at byte offset `i`:
four `strncat` calls at offsets `i`, `i+2`, `i+4`, `i+6`, each with bound
`STRBUFLEN - i`. -/
def effBody (m : CMem) (i : Nat) : CMem :=
  strncatAt (strncatAt (strncatAt (strncatAt m i Jo (STRBUFLEN - i)) (i + 2) Pa (STRBUFLEN - i)) (i + 4) Ge (STRBUFLEN - i)) (i + 6) Ri (STRBUFLEN - i)

/-- `k` iterations of the inner loop of `efficientStringConcat`; the
iteration counted `k` runs at byte offset `i = 8*k`, matching the source
loop `for (i = 0; i < STRBUFLEN; i = i+8)`. -/
def effInner (m : CMem) : Nat → CMem
  | 0 => m
  | k + 1 => effBody (effInner m k) (8 * k)

/-- One outer iteration of `efficientStringConcat`:
`STRBUFFER[0] = '\0'` followed by the offset-stepping inner loop
(`STRBUFLEN / 8` iterations). -/
def effOuterBody (m : CMem) : CMem :=
  effInner (writeChar m 0 nullChar) (STRBUFLEN / 8)

/-- `n`-fold iteration of a state transformer (the outer `for` loop). -/
def iterate (f : CMem → CMem) (m : CMem) : Nat → CMem
  | 0 => m
  | n + 1 => f (iterate f m n)

/-- `inefficientStringConcat`: 10000 outer iterations. -/
def inefficientStringConcat (m : CMem) : CMem :=
  iterate ineffOuterBody m 10000

/-- `efficientStringConcat`: 10000 outer iterations. -/
def efficientStringConcat (m : CMem) : CMem :=
  iterate effOuterBody m 10000

/-- `static char STRBUFFER[STRBUFLEN]`: zero-initialized, nothing written
yet. -/
def zeroMem : CMem := ⟨fun _ => nullChar, 0⟩

/-- The first `n` bytes of memory, as a list (the content of the declared
buffer when `n = STRBUFLEN`). -/
def readBytes (b : Buffer) (n : Nat) : List Char :=
  (List.range n).map b

/-- `struct timespec`: seconds and nanoseconds, both C `long`. -/
structure Timespec where
  tv_sec : Int
  tv_nsec : Int
  deriving DecidableEq

/-- `diff(start, end)` from the source: componentwise subtraction with a
borrow of one second when the raw nanosecond difference is negative. -/
def diff (start stop : Timespec) : Timespec :=
  if stop.tv_nsec - start.tv_nsec < 0 then
    ⟨stop.tv_sec - start.tv_sec - 1, 1000000000 + stop.tv_nsec - start.tv_nsec⟩
  else
    ⟨stop.tv_sec - start.tv_sec, stop.tv_nsec - start.tv_nsec⟩

/-- `operator<<(std::ostream&, const timespec&)` from the source: C integer
division of `long` truncates toward zero, which is `Int.tdiv`. -/
def timespecToString (t : Timespec) : String :=
  toString t.tv_sec ++ "s " ++ toString (t.tv_nsec.tdiv 1000000) ++ "ms "
    ++ toString (t.tv_nsec - t.tv_nsec.tdiv 1000000 * 1000000) ++ "ns"

/-- The line format as the specification words it:
`<seconds>s <milliseconds>ms <remainder-nanoseconds>ns`, where
milliseconds = tv_nsec / 1,000,000 (truncating division) and
remainder-nanoseconds = tv_nsec - milliseconds * 1,000,000. -/
def specLineFormat (t : Timespec) : String :=
  let ms : Int := t.tv_nsec.tdiv 1000000
  toString t.tv_sec ++ "s " ++ toString ms ++ "ms " ++ toString (t.tv_nsec - ms * 1000000) ++ "ns"

/-- World state threaded through `main`: the clock oracle (the sequence of
readings `clock_gettime` will return), how many readings were taken, the
process memory, and the lines written to standard output. -/
structure World where
  clock : Nat → Timespec
  ticks : Nat
  mem : CMem
  out : List String

/-- `getTime()`: take the next clock reading. -/
def getTime (w : World) : Timespec × World :=
  (w.clock w.ticks, { w with ticks := w.ticks + 1 })

/-- `timeOperation(start, end, function)`: read the clock, run the
operation, read the clock again, return `diff` of the two readings. -/
def timeOperation (f : CMem → CMem) (w : World) : Timespec × World :=
  let r1 := getTime w
  let w2 := { r1.2 with mem := f r1.2.mem }
  let r2 := getTime w2
  (diff r1.1 r2.1, r2.2)

/-- `cout << t << endl`: append one line to standard output. -/
def printLine (s : String) (w : World) : World :=
  { w with out := w.out ++ [s] }

/-- `main(argc, argv)`, returning the exit code and the final world.  The
argument-check branch at the top of `main` (`if (argc > 1) { if (argc }`) is
left unfinished in the source and, per the specification, is effectively
inert: it is modelled as having no effect, so `argc` and `argv` are never
consulted. -/
def mainRun (argc : Nat) (argv : List String) (w : World) : Int × World :=
  let r1 := timeOperation inefficientStringConcat w
  let w2 := printLine (timespecToString r1.1) r1.2
  let r2 := timeOperation efficientStringConcat w2
  let w4 := printLine (timespecToString r2.1) r2.2
  (0, w4)

theorem max_eq_right_of_le (a b : Nat) (h : a ≤ b) : Nat.max a b = b := by
  simp only [Nat.max_def]
  split <;> omega

theorem max_absorb_of_le (a b c : Nat) (h : b ≤ c) :
    Nat.max (Nat.max a b) c = Nat.max a c := by
  simp only [Nat.max_def]
  split <;> split <;> omega

theorem getD_append_left (l l' : List Char) (d : Char) :
    ∀ j, j < l.length → (l ++ l').getD j d = l.getD j d := by
  induction l with
  | nil => intro j h; simp at h
  | cons c cs ih =>
    intro j h
    cases j with
    | zero => rfl
    | succ k => exact ih k (by simpa using h)

theorem getD_append_right (l l' : List Char) (d : Char) :
    ∀ j, (l ++ l').getD (l.length + j) d = l'.getD j d := by
  induction l with
  | nil => intro j; simp
  | cons c cs ih => intro j; simpa [Nat.succ_add] using ih j

theorem getD_eq_get (l : List Char) (d : Char) :
    ∀ (j : Nat) (h : j < l.length), l.getD j d = l.get ⟨j, h⟩ := by
  induction l with
  | nil => intro j h; simp at h
  | cons c cs ih =>
    intro j h
    cases j with
    | zero => rfl
    | succ k => exact ih k (by simpa using h)

theorem writeChar_buf (m : CMem) (i c j) :
    (writeChar m i c).buf j = if j = i then c else m.buf j := rfl

theorem writeList_buf (cs : List Char) : ∀ (m : CMem) (i j : Nat),
    (writeList m i cs).buf j =
      if i ≤ j ∧ j < i + cs.length then cs.getD (j - i) nullChar else m.buf j := by
  induction cs with
  | nil =>
    intro m i j
    have h : ¬(i ≤ j ∧ j < i + ([] : List Char).length) := by
      simp only [List.length_nil]; omega
    rw [writeList, if_neg h]
  | cons c cs ih =>
    intro m i j
    show (writeList (writeChar m i c) (i + 1) cs).buf j = _
    rw [ih]
    by_cases h1 : i + 1 ≤ j ∧ j < i + 1 + cs.length
    · rw [if_pos h1, if_pos (by simp only [List.length_cons]; omega)]
      have h3 : j - i = (j - (i + 1)) + 1 := by omega
      rw [h3]
      rfl
    · rw [if_neg h1, writeChar_buf]
      by_cases h2 : j = i
      · subst h2
        rw [if_pos rfl, if_pos (by simp only [List.length_cons]; omega)]
        simp
      · rw [if_neg h2, if_neg (by simp only [List.length_cons] at *; omega)]

theorem writeList_maxW : ∀ (cs : List Char) (c : Char) (m : CMem) (i : Nat),
    (writeList m i (c :: cs)).maxW = Nat.max m.maxW (i + cs.length) := by
  intro cs
  induction cs with
  | nil =>
    intro c m i
    show (writeChar m i c).maxW = _
    simp [writeChar]
  | cons c2 cs ih =>
    intro c m i
    show (writeList (writeChar m i c) (i + 1) (c2 :: cs)).maxW = _
    rw [ih]
    show Nat.max (Nat.max m.maxW i) (i + 1 + cs.length) = _
    rw [max_absorb_of_le _ _ _ (by omega)]
    simp only [List.length_cons]
    congr 1
    omega

theorem strlenFrom_spec (b : Buffer) :
    ∀ (k p fuel : Nat), (∀ q, q < k → b (p + q) ≠ nullChar) →
      b (p + k) = nullChar → k < fuel → strlenFrom b p fuel = k := by
  intro k
  induction k with
  | zero =>
    intro p fuel _ hnull hfuel
    cases fuel with
    | zero => omega
    | succ f => rw [strlenFrom, if_pos (by simpa using hnull)]
  | succ k ih =>
    intro p fuel hk hnull hfuel
    cases fuel with
    | zero => omega
    | succ f =>
      rw [strlenFrom, if_neg (by simpa using hk 0 (by omega))]
      rw [ih (p + 1) f (fun q hq => by
            have := hk (q + 1) (by omega)
            simpa [Nat.add_assoc, Nat.add_comm 1 q] using this)
          (by have h : p + 1 + k = p + (k + 1) := by omega
              rw [h]; exact hnull)
          (by omega)]

theorem strlenFrom_zero (b : Buffer) (p fuel : Nat) (hnull : b p = nullChar)
    (hfuel : 0 < fuel) : strlenFrom b p fuel = 0 :=
  strlenFrom_spec b 0 p fuel (fun q hq => by omega) (by simpa using hnull) hfuel

theorem getD_snoc_length (l : List Char) (c d : Char) : (l ++ [c]).getD l.length d = c := by
  induction l with
  | nil => rfl
  | cons a l ih => simp only [List.cons_append, List.length_cons, List.getD_cons_succ]; exact ih

/-- `cs` has no null characters. -/
def NoNull (cs : List Char) : Prop := ∀ c ∈ cs, c ≠ nullChar

theorem noNull_append {cs ds : List Char} (h1 : NoNull cs) (h2 : NoNull ds) :
    NoNull (cs ++ ds) := by
  intro c hc
  rcases List.mem_append.mp hc with h | h
  · exact h1 c h
  · exact h2 c h

/-- The memory `m` holds exactly the C string `cs` starting at offset 0 (its
characters at offsets `0..cs.length - 1`, its terminating null at offset
`cs.length`), with every byte above the terminator unchanged from `m0`, and
`maxW` accounting for the writes that produced it. -/
def IsStr (m0 : CMem) (cs : List Char) (m : CMem) : Prop :=
  (∀ j, m.buf j =
      if j < cs.length then cs.getD j nullChar
      else if j = cs.length then nullChar
      else m0.buf j)
    ∧ m.maxW = Nat.max m0.maxW cs.length

theorem reset_isStr (m : CMem) : IsStr m [] (writeChar m 0 nullChar) := by
  constructor
  · intro j
    rw [writeChar_buf]
    by_cases h : j = 0
    · subst h; rfl
    · rw [if_neg h]
      simp only [List.length_nil]
      rw [if_neg (by omega), if_neg h]
  · rfl

theorem strncatAt_isStr (m0 m : CMem) (cs src : List Char) (p n : Nat)
    (h : IsStr m0 cs m) (hcs : NoNull cs) (hsrc : NoNull (src.take n))
    (hp : p ≤ cs.length) (hfuel : cs.length < scanFuel) :
    IsStr m0 (cs ++ src.take n) (strncatAt m p src n) := by
  have hstr : strlenFrom m.buf p scanFuel = cs.length - p := by
    apply strlenFrom_spec
    · intro q hq
      rw [h.1 (p + q), if_pos (by omega)]
      rw [getD_eq_get cs nullChar (p + q) (by omega)]
      exact hcs _ (List.get_mem cs (p + q) (by omega))
    · rw [h.1 (p + (cs.length - p)), if_neg (by omega), if_pos (by omega)]
    · omega
  have hpl : p + (cs.length - p) = cs.length := by omega
  set src' := src.take n with hsrc'
  constructor
  · intro j
    simp only [strncatAt, ← hsrc', hstr, hpl, writeList_buf]
    simp only [List.length_append, List.length_cons, List.length_nil]
    by_cases hj1 : j < cs.length
    · rw [if_neg (by omega), h.1 j, if_pos hj1, if_pos (by omega)]
      rw [getD_append_left cs src' nullChar j hj1]
    · by_cases hj3 : j < cs.length + src'.length
      · rw [if_pos (by omega), if_pos (by omega)]
        rw [getD_append_left src' [nullChar] nullChar (j - cs.length) (by omega)]
        have hr := getD_append_right cs src' nullChar (j - cs.length)
        have hj : cs.length + (j - cs.length) = j := by omega
        rw [hj] at hr
        rw [hr]
      · by_cases hj4 : j = cs.length + src'.length
        · subst hj4
          rw [if_pos (by omega), if_neg (by omega), if_pos rfl]
          have hl : cs.length + src'.length - cs.length = src'.length := by omega
          rw [hl]
          exact getD_snoc_length src' nullChar nullChar
        · rw [if_neg (by omega), h.1 j, if_neg (by omega), if_neg (by omega),
              if_neg (by omega), if_neg hj4]
  · have hmw : (strncatAt m p src n).maxW = Nat.max m.maxW (cs.length + src'.length) := by
      simp only [strncatAt, ← hsrc', hstr, hpl]
      cases src' with
      | nil =>
        rw [List.nil_append, writeList_maxW [] nullChar m cs.length]
      | cons c t =>
        have hct : (c :: t) ++ [nullChar] = c :: (t ++ [nullChar]) := rfl
        rw [hct, writeList_maxW (t ++ [nullChar]) c m cs.length]
        simp only [List.length_append, List.length_cons, List.length_nil]
    rw [hmw, h.2, max_absorb_of_le _ _ _ (by omega)]
    simp only [List.length_append]

theorem noNull_Jo : NoNull Jo := by unfold NoNull Jo; decide

theorem noNull_Pa : NoNull Pa := by unfold NoNull Pa; decide

theorem noNull_Ge : NoNull Ge := by unfold NoNull Ge; decide

theorem noNull_Ri : NoNull Ri := by unfold NoNull Ri; decide

theorem noNull_joPaGeRi : NoNull joPaGeRi := by unfold NoNull joPaGeRi; decide

theorem repList_length (cs : List Char) : ∀ n, (repList cs n).length = n * cs.length := by
  intro n
  induction n with
  | zero => simp [repList]
  | succ k ih => simp [repList, ih, Nat.succ_mul]

theorem noNull_repList (cs : List Char) (h : NoNull cs) : ∀ n, NoNull (repList cs n) := by
  intro n
  induction n with
  | zero => intro c hc; simp [repList] at hc
  | succ k ih => exact noNull_append ih h

/-- A `strncat` call whose bound does not truncate its source appends the
whole token. -/
theorem append_token_isStr (m0 m : CMem) (cs tok : List Char) (p n : Nat)
    (h : IsStr m0 cs m) (hcs : NoNull cs) (htok : NoNull tok)
    (htlen : tok.length ≤ n) (hp : p ≤ cs.length) (hlen : cs.length ≤ 2000) :
    IsStr m0 (cs ++ tok) (strncatAt m p tok n) := by
  have ht : tok.take n = tok := List.take_of_length_le htlen
  have hsf : scanFuel = 2048 := rfl
  have h2 := strncatAt_isStr m0 m cs tok p n h hcs (by rw [ht]; exact htok) hp (by omega)
  rwa [ht] at h2

theorem ineffBody_isStr (m0 m : CMem) (cs : List Char) (h : IsStr m0 cs m)
    (hcs : NoNull cs) (hlen : cs.length ≤ 1016) :
    IsStr m0 (cs ++ joPaGeRi) (ineffBody m) := by
  have hS : STRBUFLEN = 1024 := rfl
  have hJo : Jo.length = 2 := rfl
  have hPa : Pa.length = 2 := rfl
  have hGe : Ge.length = 2 := rfl
  have h1 := append_token_isStr m0 m cs Jo 0 STRBUFLEN h hcs noNull_Jo (by decide)
    (by omega) (by omega)
  have h2 := append_token_isStr m0 _ (cs ++ Jo) Pa 0 STRBUFLEN h1
    (noNull_append hcs noNull_Jo) noNull_Pa (by decide) (by omega)
    (by simp only [List.length_append, hJo]; omega)
  have h3 := append_token_isStr m0 _ ((cs ++ Jo) ++ Pa) Ge 0 STRBUFLEN h2
    (noNull_append (noNull_append hcs noNull_Jo) noNull_Pa) noNull_Ge (by decide) (by omega)
    (by simp only [List.length_append, hJo, hPa]; omega)
  have h4 := append_token_isStr m0 _ (((cs ++ Jo) ++ Pa) ++ Ge) Ri 0 STRBUFLEN h3
    (noNull_append (noNull_append (noNull_append hcs noNull_Jo) noNull_Pa) noNull_Ge)
    noNull_Ri (by decide) (by omega)
    (by simp only [List.length_append, hJo, hPa, hGe]; omega)
  have hre : (((cs ++ Jo) ++ Pa) ++ Ge) ++ Ri = cs ++ joPaGeRi := by
    simp [Jo, Pa, Ge, Ri, joPaGeRi]
  rw [hre] at h4
  exact h4

theorem effBody_isStr (m0 m : CMem) (cs : List Char) (k : Nat) (h : IsStr m0 cs m)
    (hcs : NoNull cs) (hlen : cs.length = 8 * k) (hk : k < 128) :
    IsStr m0 (cs ++ joPaGeRi) (effBody m (8 * k)) := by
  have hS : STRBUFLEN = 1024 := rfl
  have hJo : Jo.length = 2 := rfl
  have hPa : Pa.length = 2 := rfl
  have hGe : Ge.length = 2 := rfl
  have hRi : Ri.length = 2 := rfl
  have h1 := append_token_isStr m0 m cs Jo (8 * k) (STRBUFLEN - 8 * k) h hcs noNull_Jo
    (by omega) (by omega) (by omega)
  have h2 := append_token_isStr m0 _ (cs ++ Jo) Pa (8 * k + 2) (STRBUFLEN - 8 * k) h1
    (noNull_append hcs noNull_Jo) noNull_Pa (by omega)
    (by simp only [List.length_append]; omega) (by simp only [List.length_append]; omega)
  have h3 := append_token_isStr m0 _ ((cs ++ Jo) ++ Pa) Ge (8 * k + 4) (STRBUFLEN - 8 * k) h2
    (noNull_append (noNull_append hcs noNull_Jo) noNull_Pa) noNull_Ge (by omega)
    (by simp only [List.length_append]; omega) (by simp only [List.length_append]; omega)
  have h4 := append_token_isStr m0 _ (((cs ++ Jo) ++ Pa) ++ Ge) Ri (8 * k + 6) (STRBUFLEN - 8 * k) h3
    (noNull_append (noNull_append (noNull_append hcs noNull_Jo) noNull_Pa) noNull_Ge)
    noNull_Ri (by omega)
    (by simp only [List.length_append]; omega) (by simp only [List.length_append]; omega)
  have hre : (((cs ++ Jo) ++ Pa) ++ Ge) ++ Ri = cs ++ joPaGeRi := by
    simp [Jo, Pa, Ge, Ri, joPaGeRi]
  rw [hre] at h4
  exact h4

theorem ineffInner_isStr (m0 m : CMem) (h : IsStr m0 [] m) :
    ∀ k, k ≤ 128 → IsStr m0 (repList joPaGeRi k) (ineffInner m k) := by
  intro k
  induction k with
  | zero => intro _; exact h
  | succ k ih =>
    intro hk
    have hstep := ih (by omega)
    show IsStr m0 (repList joPaGeRi k ++ joPaGeRi) (ineffBody (ineffInner m k))
    exact ineffBody_isStr m0 _ _ hstep (noNull_repList _ noNull_joPaGeRi k)
      (by rw [repList_length]; unfold joPaGeRi; simp; omega)

theorem effInner_isStr (m0 m : CMem) (h : IsStr m0 [] m) :
    ∀ k, k ≤ 128 → IsStr m0 (repList joPaGeRi k) (effInner m k) := by
  intro k
  induction k with
  | zero => intro _; exact h
  | succ k ih =>
    intro hk
    have hstep := ih (by omega)
    show IsStr m0 (repList joPaGeRi k ++ joPaGeRi) (effBody (effInner m k) (8 * k))
    exact effBody_isStr m0 _ _ k hstep (noNull_repList _ noNull_joPaGeRi k)
      (by rw [repList_length]; unfold joPaGeRi; simp; omega) (by omega)

theorem ineffOuterBody_isStr (m : CMem) :
    IsStr m (repList joPaGeRi 128) (ineffOuterBody m) :=
  ineffInner_isStr m _ (reset_isStr m) 128 (by omega)

theorem effOuterBody_isStr (m : CMem) :
    IsStr m (repList joPaGeRi 128) (effOuterBody m) :=
  effInner_isStr m _ (reset_isStr m) 128 (by omega)

/-- The full per-iteration content: `"JoPaGeRi"` repeated 128 times is 1024
characters. -/
theorem repPattern_length : (repList joPaGeRi 128).length = 1024 := by
  rw [repList_length]
  rfl

theorem outerBody_stable (f : CMem → CMem)
    (hf : ∀ m, IsStr m (repList joPaGeRi 128) (f m)) :
    ∀ m, f (f m) = f m := by
  intro m
  apply CMem.ext_eq
  · funext j
    rw [(hf (f m)).1 j, (hf m).1 j]
    split_ifs <;> rfl
  · rw [(hf (f m)).2, (hf m).2, max_absorb_of_le _ _ _ (le_refl _)]

theorem iterate_stable (f : CMem → CMem) (hf : ∀ m, f (f m) = f m) (m : CMem) :
    ∀ n, iterate f m (n + 1) = f m := by
  intro n
  induction n with
  | zero => rfl
  | succ k ih =>
    show f (iterate f m (k + 1)) = f m
    rw [ih, hf]

/-- The 10000 outer iterations of the inefficient variant produce the same
state as a single outer iteration. -/
theorem inefficientStringConcat_eq_one (m : CMem) :
    inefficientStringConcat m = ineffOuterBody m := by
  show iterate ineffOuterBody m 10000 = _
  have h : (10000 : Nat) = 9999 + 1 := by norm_num
  rw [h, iterate_stable _ (outerBody_stable _ ineffOuterBody_isStr) m 9999]

/-- The 10000 outer iterations of the efficient variant produce the same
state as a single outer iteration. -/
theorem efficientStringConcat_eq_one (m : CMem) :
    efficientStringConcat m = effOuterBody m := by
  show iterate effOuterBody m 10000 = _
  have h : (10000 : Nat) = 9999 + 1 := by norm_num
  rw [h, iterate_stable _ (outerBody_stable _ effOuterBody_isStr) m 9999]

/-- Any state holding the 1024-character full pattern has exactly that
pattern as its first 1024 bytes. -/
theorem readBytes_of_isStr (m0 m : CMem) (h : IsStr m0 (repList joPaGeRi 128) m) :
    readBytes m.buf STRBUFLEN = repList joPaGeRi 128 := by
  apply List.ext_getElem
  · simp [readBytes, repPattern_length]
    rfl
  · intro i h1 h2
    simp only [readBytes, List.getElem_map, List.getElem_range]
    have hi : i < 1024 := by
      simpa [readBytes] using h1
    rw [h.1 i, if_pos (by rw [repPattern_length]; exact hi)]
    rw [getD_eq_get _ _ i (by rw [repPattern_length]; exact hi)]
    simp [List.get_eq_getElem]

theorem ineffConcat_maxW (m : CMem) :
    (inefficientStringConcat m).maxW = Nat.max m.maxW 1024 := by
  rw [inefficientStringConcat_eq_one, (ineffOuterBody_isStr m).2, repPattern_length]

theorem effConcat_maxW (m : CMem) :
    (efficientStringConcat m).maxW = Nat.max m.maxW 1024 := by
  rw [efficientStringConcat_eq_one, (effOuterBody_isStr m).2, repPattern_length]

/-- A `strncat` call at an offset whose byte is already null (and whose
bound does not truncate the source) degenerates to writing the token and
its terminator directly at that offset, with no dependence on earlier
buffer content. -/
theorem strncatAt_at_null (m : CMem) (p : Nat) (src : List Char) (n : Nat)
    (hnull : m.buf p = nullChar) (htake : src.take n = src) :
    strncatAt m p src n = writeList m p (src ++ [nullChar]) := by
  unfold strncatAt
  rw [strlenFrom_zero m.buf p scanFuel hnull (by norm_num [scanFuel]), htake, Nat.add_zero]

/-- C1: with the fixed token sequence "Jo","Pa","Ge","Ri" and the fixed
iteration counts (10000 outer, 128 inner), the inefficient and the
efficient benchmark leave the shared 1024-byte buffer with identical final
content, whatever memory states they start from. -/
theorem c1_benchmarks_same_final_content (m1 m2 : CMem) :
    readBytes (inefficientStringConcat m1).buf STRBUFLEN =
      readBytes (efficientStringConcat m2).buf STRBUFLEN := by
  rw [inefficientStringConcat_eq_one, efficientStringConcat_eq_one,
      readBytes_of_isStr m1 _ (ineffOuterBody_isStr m1),
      readBytes_of_isStr m2 _ (effOuterBody_isStr m2)]

/-- C2: after one outer iteration of either variant, the buffer content
(its 1024 bytes) equals "JoPaGeRi" repeated 128 times, truncated to fit
1024 bytes if needed (it is exactly 1024 characters, so taking 1024 bytes
truncates nothing). -/
theorem c2_one_outer_iteration_content (m1 m2 : CMem) :
    readBytes (ineffOuterBody m1).buf STRBUFLEN = (repList joPaGeRi 128).take STRBUFLEN
    ∧ readBytes (effOuterBody m2).buf STRBUFLEN = (repList joPaGeRi 128).take STRBUFLEN := by
  have ht : (repList joPaGeRi 128).take STRBUFLEN = repList joPaGeRi 128 :=
    List.take_of_length_le (by rw [repPattern_length]; exact Nat.le_refl 1024)
  exact ⟨by rw [ht, readBytes_of_isStr m1 _ (ineffOuterBody_isStr m1)],
         by rw [ht, readBytes_of_isStr m2 _ (effOuterBody_isStr m2)]⟩

/-- C3 counterexample: running the inefficient benchmark from the program's
actual zero-initialized buffer writes a byte at offset 1024, outside the
declared index range 0..1023: before the run no offset has been written
(`maxW = 0`), and afterwards the largest offset written is 1024. -/
theorem c3_counterexample_write_at_1024 :
    zeroMem.maxW = 0 ∧ (inefficientStringConcat zeroMem).maxW = 1024 ∧ 1023 < 1024 := by
  refine ⟨rfl, ?_, by omega⟩
  rw [ineffConcat_maxW]
  rfl

/-- C3 (amended): the bound passed to `strncat` limits the number of source
characters, not the destination capacity, so nothing is truncated at 1024;
every write of either benchmark lands in offsets 0..1024, and offset 1024
(the terminator of the completed 1024-character string, one byte outside
the declared buffer) is reached: the maximum offset written is exactly
`max maxW₀ 1024`. -/
theorem c3_amended_writes_reach_1024 (m : CMem) :
    (inefficientStringConcat m).maxW = Nat.max m.maxW 1024
    ∧ (efficientStringConcat m).maxW = Nat.max m.maxW 1024 :=
  ⟨ineffConcat_maxW m, effConcat_maxW m⟩

/-- C4: `diff` implements the borrow rule — if the raw nanosecond
difference is negative it subtracts one extra second and adds 1,000,000,000
to the nanosecond difference, otherwise it subtracts componentwise — and in
particular `diff((10, 900000000), (11, 100000000)) = (0, 200000000)` and
`diff((5, 100), (5, 200)) = (0, 100)`. -/
theorem c4_diff_borrow_rule :
    (∀ s e : Timespec, diff s e =
      if e.tv_nsec - s.tv_nsec < 0 then
        ⟨e.tv_sec - s.tv_sec - 1, 1000000000 + e.tv_nsec - s.tv_nsec⟩
      else ⟨e.tv_sec - s.tv_sec, e.tv_nsec - s.tv_nsec⟩)
    ∧ diff ⟨10, 900000000⟩ ⟨11, 100000000⟩ = ⟨0, 200000000⟩
    ∧ diff ⟨5, 100⟩ ⟨5, 200⟩ = ⟨0, 100⟩ :=
  ⟨fun _ _ => rfl, by decide, by decide⟩

/-- C5: for time readings with nanosecond fields in [0, 1_000_000_000)
where the end is not earlier than the start, `diff` returns a duration with
nanoseconds in [0, 999999999] and non-negative seconds. -/
theorem c5_diff_normalized (s e : Timespec)
    (hs0 : 0 ≤ s.tv_nsec) (hs1 : s.tv_nsec < 1000000000)
    (he0 : 0 ≤ e.tv_nsec) (he1 : e.tv_nsec < 1000000000)
    (hlater : s.tv_sec < e.tv_sec ∨ (e.tv_sec = s.tv_sec ∧ s.tv_nsec ≤ e.tv_nsec)) :
    0 ≤ (diff s e).tv_nsec ∧ (diff s e).tv_nsec ≤ 999999999 ∧ 0 ≤ (diff s e).tv_sec := by
  unfold diff
  split_ifs with h <;> refine ⟨?_, ?_, ?_⟩ <;> dsimp only <;> omega

/-- C5 witness: the hypotheses hold and the conclusion follows at the
concrete borrow-case input (10, 900000000), (11, 100000000). -/
theorem c5_diff_normalized_witness :
    0 ≤ (diff ⟨10, 900000000⟩ ⟨11, 100000000⟩).tv_nsec
    ∧ (diff ⟨10, 900000000⟩ ⟨11, 100000000⟩).tv_nsec ≤ 999999999
    ∧ 0 ≤ (diff ⟨10, 900000000⟩ ⟨11, 100000000⟩).tv_sec :=
  c5_diff_normalized ⟨10, 900000000⟩ ⟨11, 100000000⟩ (by decide) (by decide)
    (by decide) (by decide) (Or.inl (by decide))

/-- C6: from a fresh world (no readings taken, nothing printed yet), `main`
writes exactly two lines to standard output; the first is the inefficient
benchmark's measured duration `diff` of readings 0 and 1 (the readings
bracketing the inefficient call), the second the efficient benchmark's
duration `diff` of readings 2 and 3; and every line is printed as
`<seconds>s <milliseconds>ms <remainder-nanoseconds>ns` with
milliseconds = tv_nsec / 1000000 and
remainder-nanoseconds = tv_nsec - milliseconds * 1000000. -/
theorem c6_output_two_formatted_lines (argc : Nat) (argv : List String)
    (clock : Nat → Timespec) (m : CMem) :
    (mainRun argc argv ⟨clock, 0, m, []⟩).2.out =
      [specLineFormat (diff (clock 0) (clock 1)), specLineFormat (diff (clock 2) (clock 3))]
    ∧ (mainRun argc argv ⟨clock, 0, m, []⟩).2.out.length = 2
    ∧ (∀ t : Timespec, timespecToString t = specLineFormat t) :=
  ⟨rfl, rfl, fun _ => rfl⟩

/-- C7: the optional first argument never changes behaviour and the exit
code is always 0, for every command line and world. -/
theorem c7_args_unused_exit_zero (argc argc2 : Nat) (argv argv2 : List String) (w : World) :
    (mainRun argc argv w).1 = 0 ∧ mainRun argc argv w = mainRun argc2 argv2 w :=
  ⟨rfl, rfl⟩

/-- C8: for either benchmark, the buffer content after all 10000 outer
iterations equals the content after a single outer iteration: each outer
iteration resets the buffer and rebuilds the same content. -/
theorem c8_outer_loop_idempotent (m1 m2 : CMem) :
    (inefficientStringConcat m1).buf = (ineffOuterBody m1).buf
    ∧ (efficientStringConcat m2).buf = (effOuterBody m2).buf :=
  ⟨by rw [inefficientStringConcat_eq_one], by rw [efficientStringConcat_eq_one]⟩

/-- C9: inner-loop invariant of the efficient benchmark: at the start of
the iteration with byte offset `i = 8*k`, the byte at offset `i` is the
null terminator, the string starting there is empty (`strlenFrom` scans 0
bytes, touching no earlier content), and the iteration body equals four
direct token writes at offsets `i`, `i+2`, `i+4`, `i+6`, each token
followed by its terminator. -/
theorem c9_eff_inner_invariant (m : CMem) (k : Nat) (hk : k < 128) :
    (effInner (writeChar m 0 nullChar) k).buf (8 * k) = nullChar
    ∧ strlenFrom (effInner (writeChar m 0 nullChar) k).buf (8 * k) scanFuel = 0
    ∧ effBody (effInner (writeChar m 0 nullChar) k) (8 * k) =
        writeList (writeList (writeList (writeList (effInner (writeChar m 0 nullChar) k)
          (8 * k) (Jo ++ [nullChar])) (8 * k + 2) (Pa ++ [nullChar]))
          (8 * k + 4) (Ge ++ [nullChar])) (8 * k + 6) (Ri ++ [nullChar]) := by
  have hS : STRBUFLEN = 1024 := rfl
  have hisr := effInner_isStr m _ (reset_isStr m) k (by omega)
  have hL : (repList joPaGeRi k).length = 8 * k := by
    have hj : joPaGeRi.length = 8 := rfl
    rw [repList_length, hj]
    omega
  have hnull0 : (effInner (writeChar m 0 nullChar) k).buf (8 * k) = nullChar := by
    rw [hisr.1 (8 * k), if_neg (by omega), if_pos (by omega)]
  refine ⟨hnull0, strlenFrom_zero _ _ _ hnull0 (by norm_num [scanFuel]), ?_⟩
  set m1 := effInner (writeChar m 0 nullChar) k with hm1
  have e1 : strncatAt m1 (8 * k) Jo (STRBUFLEN - 8 * k) =
      writeList m1 (8 * k) (Jo ++ [nullChar]) :=
    strncatAt_at_null _ _ _ _ hnull0 (List.take_of_length_le (by
      have hj : Jo.length = 2 := rfl
      omega))
  have hnull1 : (writeList m1 (8 * k) (Jo ++ [nullChar])).buf (8 * k + 2) = nullChar := by
    have hlen : (Jo ++ [nullChar]).length = 3 := rfl
    rw [writeList_buf, if_pos (by omega)]
    have h2 : 8 * k + 2 - 8 * k = 2 := by omega
    rw [h2]
    rfl
  have e2 : strncatAt (writeList m1 (8 * k) (Jo ++ [nullChar])) (8 * k + 2) Pa (STRBUFLEN - 8 * k) =
      writeList (writeList m1 (8 * k) (Jo ++ [nullChar])) (8 * k + 2) (Pa ++ [nullChar]) :=
    strncatAt_at_null _ _ _ _ hnull1 (List.take_of_length_le (by
      have hp : Pa.length = 2 := rfl
      omega))
  have hnull2 : (writeList (writeList m1 (8 * k) (Jo ++ [nullChar])) (8 * k + 2)
      (Pa ++ [nullChar])).buf (8 * k + 4) = nullChar := by
    have hlen : (Pa ++ [nullChar]).length = 3 := rfl
    rw [writeList_buf, if_pos (by omega)]
    have h2 : 8 * k + 4 - (8 * k + 2) = 2 := by omega
    rw [h2]
    rfl
  have e3 : strncatAt (writeList (writeList m1 (8 * k) (Jo ++ [nullChar])) (8 * k + 2)
        (Pa ++ [nullChar])) (8 * k + 4) Ge (STRBUFLEN - 8 * k) =
      writeList (writeList (writeList m1 (8 * k) (Jo ++ [nullChar])) (8 * k + 2)
        (Pa ++ [nullChar])) (8 * k + 4) (Ge ++ [nullChar]) :=
    strncatAt_at_null _ _ _ _ hnull2 (List.take_of_length_le (by
      have hg : Ge.length = 2 := rfl
      omega))
  have hnull3 : (writeList (writeList (writeList m1 (8 * k) (Jo ++ [nullChar])) (8 * k + 2)
      (Pa ++ [nullChar])) (8 * k + 4) (Ge ++ [nullChar])).buf (8 * k + 6) = nullChar := by
    have hlen : (Ge ++ [nullChar]).length = 3 := rfl
    rw [writeList_buf, if_pos (by omega)]
    have h2 : 8 * k + 6 - (8 * k + 4) = 2 := by omega
    rw [h2]
    rfl
  have e4 : strncatAt (writeList (writeList (writeList m1 (8 * k) (Jo ++ [nullChar])) (8 * k + 2)
        (Pa ++ [nullChar])) (8 * k + 4) (Ge ++ [nullChar])) (8 * k + 6) Ri (STRBUFLEN - 8 * k) =
      writeList (writeList (writeList (writeList m1 (8 * k) (Jo ++ [nullChar])) (8 * k + 2)
        (Pa ++ [nullChar])) (8 * k + 4) (Ge ++ [nullChar])) (8 * k + 6) (Ri ++ [nullChar]) :=
    strncatAt_at_null _ _ _ _ hnull3 (List.take_of_length_le (by
      have hr : Ri.length = 2 := rfl
      omega))
  show effBody m1 (8 * k) = _
  unfold effBody
  rw [e1, e2, e3, e4]

/-- C9 witness: the invariant instantiated at the zero-initialized buffer
and iteration k = 2 (byte offset 16). -/
theorem c9_eff_inner_invariant_witness :
    (effInner (writeChar zeroMem 0 nullChar) 2).buf (8 * 2) = nullChar
    ∧ strlenFrom (effInner (writeChar zeroMem 0 nullChar) 2).buf (8 * 2) scanFuel = 0
    ∧ effBody (effInner (writeChar zeroMem 0 nullChar) 2) (8 * 2) =
        writeList (writeList (writeList (writeList (effInner (writeChar zeroMem 0 nullChar) 2)
          (8 * 2) (Jo ++ [nullChar])) (8 * 2 + 2) (Pa ++ [nullChar]))
          (8 * 2 + 4) (Ge ++ [nullChar])) (8 * 2 + 6) (Ri ++ [nullChar]) :=
  c9_eff_inner_invariant zeroMem 2 (by decide)

end Schlemiel
